import Mathlib

/-!
Verification of the o1js public-key authenticated encryption module
(`src/lib/provable/crypto/encryption.ts`): the legacy field-element
operations `encrypt` / `decrypt` and the byte-oriented successors
`encryptV2` / `decryptV2`.

The protocol logic is embedded shallowly: the external collaborators
(Poseidon sponge, Pallas group, byte/field codec), which the spec excludes
from the core and fixes only by interface, are modelled as parameters or
from their spec interface; every line of the protocol functions themselves
is translated from the TypeScript source, including JavaScript semantics
of `Array.prototype.slice` with a non-positive end index and the in-place
mutations (`pop`, assignment to `message.bytes`), which are made explicit
by returning the post-state of the mutated array.
-/

namespace PKEnc

/-- Order of the Pallas base field, the modulus of the o1js `Field` type. -/
def p : Nat := 28948022309329048855892746252171976963363056481941560715954676764349967630337

/-- The o1js `Field` type, modelled as the prime field of order `p`. -/
abbrev F : Type := ZMod p

/-- Modelled from the spec: the sponge interface of §6 (`Poseidon.Sponge` is
external to the core): a fresh state `init` (from `new Poseidon.Sponge()`),
`absorb : state → Field → state` and `squeeze : state → Field × state`.
The permutation itself is outside the spec's scope; any deterministic
implementation is an instance. -/
structure Sponge (S : Type) where
  init : S
  absorb : S → F → S
  squeeze : S → F × S

/-- Modelled from the spec: the prime-order group interface of §4.1/§6
(generator, scalar multiplication, x-coordinate projection), with the
commutativity law `(G*a)*b = (G*b)*a` that §4.1 requires of the external
group so that both sides obtain the same shared point. Scalars are
modelled as naturals. -/
structure GroupModel (G : Type) where
  generator : G
  scale : G → Nat → G
  xcoord : G → F
  scale_comm : ∀ g a b, scale (scale g a) b = scale (scale g b) a

/-- CipherText record of `encryption.ts` (V1): an ephemeral public key and
the field elements, the last of which is the authentication tag. -/
structure CipherText (G : Type) where
  publicKey : G
  cipherText : List F

/-- CipherText record of `encryption.ts` extended with `messageLength` (V2). -/
structure CipherTextV2 (G : Type) where
  publicKey : G
  cipherText : List F
  messageLength : Nat

/-- Streaming loop of the legacy `encrypt` (lines 31-38 of the source): at
index `i`, squeeze a keystream element, add it to the message chunk, push
the result, then absorb `cipherText[i-1]` when `i` is odd and
`cipherText[i]` when `i` is odd or `i` is the last index. `prev` carries
the previously pushed ciphertext element. Returns the ciphertext elements
and the final sponge state. -/
def encryptLoop {S : Type} (sp : Sponge S) (total : Nat) : F → Nat → S → List F → List F × S
  | _, _, s, [] => ([], s)
  | prev, i, s, m :: rest =>
    let ks := sp.squeeze s
    let c := m + ks.1
    let s1 := if i % 2 = 1 then sp.absorb ks.2 prev else ks.2
    let s2 := if i % 2 = 1 ∨ i = total - 1 then sp.absorb s1 c else s1
    let r := encryptLoop sp total c (i + 1) s2 rest
    (c :: r.1, r.2)

/-- Streaming loop of the legacy `decrypt` (lines 63-70 of the source):
identical sponge schedule to `encryptLoop`, but the keystream is
subtracted from the incoming ciphertext element and the absorbed elements
are the incoming ones. -/
def decryptLoop {S : Type} (sp : Sponge S) (total : Nat) : F → Nat → S → List F → List F × S
  | _, _, s, [] => ([], s)
  | prev, i, s, c :: rest =>
    let ks := sp.squeeze s
    let m := c - ks.1
    let s1 := if i % 2 = 1 then sp.absorb ks.2 prev else ks.2
    let s2 := if i % 2 = 1 ∨ i = total - 1 then sp.absorb s1 c else s1
    let r := decryptLoop sp total c (i + 1) s2 rest
    (m :: r.1, r.2)

/-- Modelled from the spec: `bytesToField` of §4.3 (`bytesToWord` in the
source, which lives outside the shown core): pack a little-endian byte
list into one field element. -/
def bytesToWord (bs : List Nat) : F :=
  ((bs.foldr (fun b acc => b + 256 * acc) 0 : Nat) : F)

/-- Little-endian base-256 digits of a natural, fixed width. -/
def natToBytesLE : Nat → Nat → List Nat
  | 0, _ => []
  | k + 1, v => v % 256 :: natToBytesLE k (v / 256)

/-- Modelled from the spec: `fieldToBytes(field, 32)` of §4.3
(`wordToBytes` in the source, outside the shown core): the `k`
little-endian base-256 digits of the canonical representative. -/
def wordToBytes (w : F) (k : Nat) : List Nat :=
  natToBytesLE k w.val

/-- Streaming loop of `encryptV2` (lines 161-174 of the source): absorb the
frame bit (1 on the last chunk, 0 otherwise) before squeezing, encrypt
`bytesToWord chunk + keystream`, then the same tag-absorb schedule as the
legacy loop. -/
def encryptV2Loop {S : Type} (sp : Sponge S) (total : Nat) : F → Nat → S → List (List Nat) → List F × S
  | _, _, s, [] => ([], s)
  | prev, i, s, ch :: rest =>
    let s0 := sp.absorb s (if i = total - 1 then 1 else 0)
    let ks := sp.squeeze s0
    let c := bytesToWord ch + ks.1
    let s1 := if i % 2 = 1 then sp.absorb ks.2 prev else ks.2
    let s2 := if i % 2 = 1 ∨ i = total - 1 then sp.absorb s1 c else s1
    let r := encryptV2Loop sp total c (i + 1) s2 rest
    (c :: r.1, r.2)

/-- Streaming loop of `decryptV2` (lines 96-113 of the source): absorb the
frame bit, squeeze, subtract the keystream, convert the recovered word to
32 bytes, push it, then the same tag-absorb schedule on the incoming
ciphertext elements. -/
def decryptV2Loop {S : Type} (sp : Sponge S) (total : Nat) : F → Nat → S → List F → List (List Nat) × S
  | _, _, s, [] => ([], s)
  | prev, i, s, c :: rest =>
    let s0 := sp.absorb s (if i = total - 1 then 1 else 0)
    let ks := sp.squeeze s0
    let m := c - ks.1
    let byteMessage := wordToBytes m 32
    let s1 := if i % 2 = 1 then sp.absorb ks.2 prev else ks.2
    let s2 := if i % 2 = 1 ∨ i = total - 1 then sp.absorb s1 c else s1
    let r := decryptV2Loop sp total c (i + 1) s2 rest
    (byteMessage :: r.1, r.2)

/-- Legacy `encrypt` (lines 20-44 of the source). The random ephemeral
scalar drawn by `Provable.witness(Scalar, Scalar.random)` is an explicit
parameter `privateKey`; the rest follows the source line by line. -/
def encrypt {G S : Type} (GM : GroupModel G) (sp : Sponge S) (privateKey : Nat)
    (otherPublicKey : G) (message : List F) : CipherText G :=
  let publicKey := GM.scale GM.generator privateKey
  let sharedSecret := GM.scale otherPublicKey privateKey
  let s0 := sp.absorb sp.init (GM.xcoord sharedSecret)
  let r := encryptLoop sp message.length 0 0 s0 message
  ⟨publicKey, r.1 ++ [(sp.squeeze r.2).1]⟩

/-- Legacy `decrypt` (lines 50-75 of the source). `cipherText.pop()` is the
explicit-state translation of the in-place mutation: the second component
of the result is the caller's array after the call (`dropLast` of the
input; `pop` on an empty array leaves it empty and yields `undefined`, on
which the tag assertion cannot succeed). The first component is `some
message` when the recomputed tag equals the popped one, `none` when the
`assertEquals` fails. -/
def decrypt {G S : Type} (GM : GroupModel G) (sp : Sponge S) (c : CipherText G)
    (privateKey : Nat) : Option (List F) × List F :=
  let sharedSecret := GM.scale c.publicKey privateKey
  let s0 := sp.absorb sp.init (GM.xcoord sharedSecret)
  match c.cipherText.getLast? with
  | none => (none, [])
  | some tag =>
    let rest := c.cipherText.dropLast
    let r := decryptLoop sp rest.length 0 0 s0 rest
    (if (sp.squeeze r.2).1 = tag then some r.1 else none, rest)

/-- Translation of `Math.ceil(messageLength / 31) * 31` from lines 120 and
140 of the source (exact ceiling division on the integer range in play). -/
def padLen (messageLength : Nat) : Nat :=
  (messageLength + 30) / 31 * 31

/-- Modelled from the spec: `Bytes.chunk(size)` of §4.3/§6 (the `Bytes`
container is external to the core): split into consecutive groups of
`size` bytes, last group possibly short. Structural recursion on a fuel
argument; fuel equal to the list length suffices since every step consumes
at least one element. -/
def chunksAux (size : Nat) : Nat → List Nat → List (List Nat)
  | _, [] => []
  | 0, _ :: _ => []
  | fuel + 1, b :: bs => (b :: bs).take size :: chunksAux size fuel ((b :: bs).drop size)

/-- Modelled from the spec: `Bytes.chunk(size)` entry point. -/
def chunk (size : Nat) (bs : List Nat) : List (List Nat) :=
  chunksAux size bs.length bs

/-- `encryptV2` (lines 129-181 of the source): pad the bytes with zeros to
`padLen` (lines 139-146), chunk into 31-byte groups, run the V2 loop,
append the squeezed tag. The assignment `message.bytes = bytes.concat(padding)`
mutates the caller's `Bytes` object; the second component of the result is
that post-call byte array. -/
def encryptV2 {G S : Type} (GM : GroupModel G) (sp : Sponge S) (privateKey : Nat)
    (otherPublicKey : G) (message : List Nat) : CipherTextV2 G × List Nat :=
  let messageLength := message.length
  let n := padLen messageLength
  let padding := List.replicate (n - messageLength) 0
  let padded := message ++ padding
  let chunks := chunk 31 padded
  let publicKey := GM.scale GM.generator privateKey
  let sharedSecret := GM.scale otherPublicKey privateKey
  let s0 := sp.absorb sp.init (GM.xcoord sharedSecret)
  let r := encryptV2Loop sp chunks.length 0 0 s0 chunks
  (⟨publicKey, r.1 ++ [(sp.squeeze r.2).1], messageLength⟩, padded)

/-- JavaScript `Array.prototype.slice(0, e)` for a possibly negative end
index: a negative `e` counts from the end of the array (clamped at 0), a
non-negative `e` is an absolute end index. -/
def jsSliceTo (l : List Nat) (e : Int) : List Nat :=
  if e < 0 then l.take (l.length - (-e).toNat) else l.take e.toNat

/-- JavaScript `Array.prototype.flat()` on an array of byte arrays. -/
def jsFlat : List (List Nat) → List Nat
  | [] => []
  | l :: ls => l ++ jsFlat ls

/-- `decryptV2` (lines 80-124 of the source): pop the tag, run the V2 loop
over the remaining elements, check the recomputed tag, then return
`Bytes.from(message.flat().slice(0, messageLength - n))` with
`n = Math.ceil(messageLength / 31) * 31` — translated verbatim, including
the JavaScript semantics of `slice` with the non-positive end index
`messageLength - n`. The second component is the caller's ciphertext array
after the in-place `pop`. -/
def decryptV2 {G S : Type} (GM : GroupModel G) (sp : Sponge S) (c : CipherTextV2 G)
    (privateKey : Nat) : Option (List Nat) × List F :=
  let sharedSecret := GM.scale c.publicKey privateKey
  let s0 := sp.absorb sp.init (GM.xcoord sharedSecret)
  match c.cipherText.getLast? with
  | none => (none, [])
  | some tag =>
    let rest := c.cipherText.dropLast
    let r := decryptV2Loop sp rest.length 0 0 s0 rest
    (if (sp.squeeze r.2).1 = tag then
        some (jsSliceTo (jsFlat r.1) ((c.messageLength : Int) - (padLen c.messageLength : Nat)))
      else none,
      rest)

/-- Recomputed legacy authentication tag: the element squeezed after the
streaming loop has consumed all ciphertext elements except the popped tag
(line 72 of the source). -/
def legacyTag {G S : Type} (GM : GroupModel G) (sp : Sponge S) (c : CipherText G) (sk : Nat) : F :=
  (sp.squeeze (decryptLoop sp c.cipherText.dropLast.length 0 0
      (sp.absorb sp.init (GM.xcoord (GM.scale c.publicKey sk))) c.cipherText.dropLast).2).1

/-- Plaintext computed by the full legacy decryption loop. -/
def legacyBody {G S : Type} (GM : GroupModel G) (sp : Sponge S) (c : CipherText G) (sk : Nat) : List F :=
  (decryptLoop sp c.cipherText.dropLast.length 0 0
      (sp.absorb sp.init (GM.xcoord (GM.scale c.publicKey sk))) c.cipherText.dropLast).1

/-- Recomputed V2 authentication tag, squeezed after the loop has consumed
all ciphertext elements except the popped tag (line 116 of the source). -/
def v2Tag {G S : Type} (GM : GroupModel G) (sp : Sponge S) (c : CipherTextV2 G) (sk : Nat) : F :=
  (sp.squeeze (decryptV2Loop sp c.cipherText.dropLast.length 0 0
      (sp.absorb sp.init (GM.xcoord (GM.scale c.publicKey sk))) c.cipherText.dropLast).2).1

/-- Byte string produced by the full V2 decryption loop followed by the
flatten-and-slice of line 123 of the source. -/
def v2Body {G S : Type} (GM : GroupModel G) (sp : Sponge S) (c : CipherTextV2 G) (sk : Nat) : List Nat :=
  jsSliceTo (jsFlat (decryptV2Loop sp c.cipherText.dropLast.length 0 0
      (sp.absorb sp.init (GM.xcoord (GM.scale c.publicKey sk))) c.cipherText.dropLast).1)
    ((c.messageLength : Int) - (padLen c.messageLength : Nat))

/-- Instrumented sponge whose state is its full event history: `some x`
records an absorb of `x`, `none` records a squeeze. The squeezed field
element is an arbitrary function `ks` of the history, so every
deterministic sponge implementation is simulated by some `ks`. -/
def traceSponge (ks : List (Option F) → F) : Sponge (List (Option F)) :=
  { init := [],
    absorb := fun s x => s ++ [some x],
    squeeze := fun s => (ks s, s ++ [none]) }

/-- Sequence of field elements absorbed so far, read off a trace state. -/
def absorbedOf (s : List (Option F)) : List F := s.filterMap id

/-- The list `[k, k+1, ..., k+n-1]`. -/
def idxFrom (k : Nat) : Nat → List Nat
  | 0 => []
  | n + 1 => k :: idxFrom (k + 1) n

/-- Concatenation of `f i` over a list of indices. -/
def catMap (f : Nat → List F) : List Nat → List F
  | [] => []
  | i :: is => f i ++ catMap f is

/-- Ciphertext elements absorbed for tag binding at chunk index `i`:
element `i - 1` exactly when `i` is odd, element `i` exactly when `i` is
odd or `i` is the final index. -/
def tagAbsorbStep (ct : List F) (i : Nat) : List F :=
  (if i % 2 = 1 then [ct.getD (i - 1) 0] else []) ++
  (if i % 2 = 1 ∨ i = ct.length - 1 then [ct.getD i 0] else [])

/-- Complete tag-binding absorb schedule of a legacy streaming loop over
ciphertext elements `ct`. -/
def tagAbsorbs (ct : List F) : List F :=
  catMap (tagAbsorbStep ct) (idxFrom 0 ct.length)

/-- Absorb events of a V2 streaming loop at chunk index `i`: the frame bit
(1 on the final index, 0 otherwise), then the same tag-binding elements as
the legacy schedule. -/
def tagAbsorbStepV2 (ct : List F) (i : Nat) : List F :=
  (if i = ct.length - 1 then (1 : F) else 0) :: tagAbsorbStep ct i

/-- Complete absorb schedule of a V2 streaming loop over ciphertext
elements `ct`. -/
def tagAbsorbsV2 (ct : List F) : List F :=
  catMap (tagAbsorbStepV2 ct) (idxFrom 0 ct.length)

/-- Toy deterministic hash of a sponge history, for concrete instances. -/
def toyHash (s : List F) : F := s.foldl (fun a b => 3 * a + b + 1) 1

/-- Concrete sponge instance used for concrete evaluations: the state is
the history of absorbed and squeezed elements, the squeezed element is
`toyHash` of it. -/
def toySponge : Sponge (List F) :=
  { init := [],
    absorb := fun s x => x :: s,
    squeeze := fun s => (toyHash s, toyHash s :: s) }

/-- Concrete group instance used for concrete evaluations: the group is
`F` itself with `scale g a = a * g`, which satisfies the commutativity law
required of the external group. -/
def toyGroup : GroupModel F :=
  { generator := 2,
    scale := fun g a => (a : F) * g,
    xcoord := fun x => x,
    scale_comm := by
      intro g a b
      simp [mul_left_comm] }

/-- Public key of the toy key pair with secret scalar 2. -/
def pk2 : F := toyGroup.scale toyGroup.generator 2

theorem encryptLoop_length {S : Type} (sp : Sponge S) (total : Nat) :
    ∀ (msg : List F) (prev : F) (i : Nat) (s : S),
    (encryptLoop sp total prev i s msg).1.length = msg.length := by
  intro msg
  induction msg with
  | nil => intro prev i s; simp [encryptLoop]
  | cons m rest ih => intro prev i s; simp [encryptLoop, ih]

theorem encryptV2Loop_length {S : Type} (sp : Sponge S) (total : Nat) :
    ∀ (chs : List (List Nat)) (prev : F) (i : Nat) (s : S),
    (encryptV2Loop sp total prev i s chs).1.length = chs.length := by
  intro chs
  induction chs with
  | nil => intro prev i s; simp [encryptV2Loop]
  | cons ch rest ih => intro prev i s; simp [encryptV2Loop, ih]

/-- The legacy decryption loop run on the output of the legacy encryption
loop, from the same sponge state and carried element, recovers the message
and traverses exactly the same sponge states. -/
theorem decryptLoop_encryptLoop {S : Type} (sp : Sponge S) (total : Nat) :
    ∀ (msg : List F) (prev : F) (i : Nat) (s : S),
    decryptLoop sp total prev i s (encryptLoop sp total prev i s msg).1
      = (msg, (encryptLoop sp total prev i s msg).2) := by
  intro msg
  induction msg with
  | nil => intro prev i s; simp [encryptLoop, decryptLoop]
  | cons m rest ih =>
    intro prev i s
    simp [encryptLoop, decryptLoop, ih]

/-- The V2 decryption loop run on the output of the V2 encryption loop,
from the same sponge state, recovers each chunk as its packed-then-split
byte image and traverses exactly the same sponge states. -/
theorem decryptV2Loop_encryptV2Loop {S : Type} (sp : Sponge S) (total : Nat) :
    ∀ (chs : List (List Nat)) (prev : F) (i : Nat) (s : S),
    decryptV2Loop sp total prev i s (encryptV2Loop sp total prev i s chs).1
      = (chs.map (fun ch => wordToBytes (bytesToWord ch) 32),
         (encryptV2Loop sp total prev i s chs).2) := by
  intro chs
  induction chs with
  | nil => intro prev i s; simp [encryptV2Loop, decryptV2Loop]
  | cons ch rest ih =>
    intro prev i s
    simp [encryptV2Loop, decryptV2Loop, ih]

/-- Legacy decryption of a legacy encryption under the matching key pair
succeeds and returns the message, for every sponge and group model. -/
theorem decrypt_encrypt_general {G S : Type} (GM : GroupModel G) (sp : Sponge S)
    (eph sk : Nat) (msg : List F) :
    (decrypt GM sp (encrypt GM sp eph (GM.scale GM.generator sk) msg) sk).1 = some msg := by
  have hcomm := GM.scale_comm GM.generator eph sk
  simp only [encrypt, decrypt, List.getLast?_concat, List.dropLast_concat]
  rw [encryptLoop_length, hcomm, decryptLoop_encryptLoop]
  simp

/-- V2 decryption of a V2 encryption under the matching key pair passes the
tag check and returns a byte string, whatever `messageLength` the V2
record carries. -/
theorem decryptV2_encryptV2_isSome {G S : Type} (GM : GroupModel G) (sp : Sponge S)
    (eph sk : Nat) (m : List Nat) (L : Nat) :
    ((decryptV2 GM sp
        ⟨(encryptV2 GM sp eph (GM.scale GM.generator sk) m).1.publicKey,
         (encryptV2 GM sp eph (GM.scale GM.generator sk) m).1.cipherText, L⟩ sk).1).isSome = true := by
  have hcomm := GM.scale_comm GM.generator eph sk
  simp only [encryptV2, decryptV2, List.getLast?_concat, List.dropLast_concat]
  rw [encryptV2Loop_length, hcomm, decryptV2Loop_encryptV2Loop]
  simp

theorem chunksAux_length : ∀ (fuel : Nat) (bs : List Nat), bs.length ≤ fuel →
    (chunksAux 31 fuel bs).length = (bs.length + 30) / 31 := by
  intro fuel
  induction fuel with
  | zero =>
    intro bs h
    cases bs with
    | nil => simp [chunksAux]
    | cons b t => simp at h
  | succ n ih =>
    intro bs h
    cases bs with
    | nil => simp [chunksAux]
    | cons b t =>
      simp only [chunksAux, List.length_cons]
      rw [ih]
      · simp only [List.length_drop, List.length_cons]
        omega
      · simp only [List.length_drop, List.length_cons]
        simp only [List.length_cons] at h
        omega

theorem chunk31_length (bs : List Nat) :
    (chunk 31 bs).length = (bs.length + 30) / 31 :=
  chunksAux_length bs.length bs le_rfl

theorem absorbedOf_append (s t : List (Option F)) :
    absorbedOf (s ++ t) = absorbedOf s ++ absorbedOf t := by
  simp [absorbedOf]

theorem drop_cons_getD : ∀ (ct : List F) (k : Nat) (c : F) (rest : List F),
    ct.drop k = c :: rest → ct.getD k 0 = c := by
  intro ct
  induction ct with
  | nil => intro k c rest h; simp at h
  | cons a t ih =>
    intro k c rest h
    cases k with
    | zero =>
      simp only [List.drop_zero] at h
      cases h
      rfl
    | succ k =>
      simp only [List.drop_succ_cons] at h
      simpa using ih k c rest h

theorem drop_cons_succ : ∀ (ct : List F) (k : Nat) (c : F) (rest : List F),
    ct.drop k = c :: rest → ct.drop (k + 1) = rest := by
  intro ct
  induction ct with
  | nil => intro k c rest h; simp at h
  | cons a t ih =>
    intro k c rest h
    cases k with
    | zero =>
      simp only [List.drop_zero] at h
      cases h
      simp
    | succ k =>
      simp only [List.drop_succ_cons] at h
      simpa using ih k c rest h

theorem drop_cons_lt (ct : List F) (k : Nat) (c : F) (rest : List F)
    (h : ct.drop k = c :: rest) : k < ct.length := by
  have hl := List.length_drop k ct
  rw [h] at hl
  simp at hl
  omega

theorem traceSponge_init (ks : List (Option F) → F) : (traceSponge ks).init = [] := rfl

theorem traceSponge_absorb (ks : List (Option F) → F) (s : List (Option F)) (x : F) :
    (traceSponge ks).absorb s x = s ++ [some x] := rfl

theorem traceSponge_squeeze (ks : List (Option F) → F) (s : List (Option F)) :
    (traceSponge ks).squeeze s = (ks s, s ++ [none]) := rfl

/-- Absorbed elements contributed by the state transformation of one
tag-binding step of a streaming loop. -/
theorem step_absorbed (q r : Prop) [Decidable q] [Decidable r]
    (s : List (Option F)) (prev c : F) :
    absorbedOf (if r then (if q then s ++ [none] ++ [some prev] else s ++ [none]) ++ [some c]
                else if q then s ++ [none] ++ [some prev] else s ++ [none])
      = absorbedOf s ++ ((if q then [prev] else []) ++ (if r then [c] else [])) := by
  by_cases hq : q <;> by_cases hr : r <;> simp [hq, hr, absorbedOf]

/-- Absorb trace of the legacy decryption loop started at index `k` on the
corresponding suffix of the ciphertext: one `tagAbsorbStep` per remaining
index. -/
theorem decryptLoop_trace (ks : List (Option F) → F) (ct : List F) :
    ∀ (suffix : List F) (k : Nat) (prev : F) (s : List (Option F)),
    ct.drop k = suffix →
    (k % 2 = 1 → prev = ct.getD (k - 1) 0) →
    absorbedOf (decryptLoop (traceSponge ks) ct.length prev k s suffix).2
      = absorbedOf s ++ catMap (tagAbsorbStep ct) (idxFrom k (ct.length - k)) := by
  intro suffix
  induction suffix with
  | nil =>
    intro k prev s hdrop hprev
    have hl := List.length_drop k ct
    rw [hdrop] at hl
    simp at hl
    have hz : ct.length - k = 0 := by omega
    rw [hz]
    simp [decryptLoop, idxFrom, catMap]
  | cons c rest ih =>
    intro k prev s hdrop hprev
    have hk : ct.getD k 0 = c := drop_cons_getD ct k c rest hdrop
    have hd1 : ct.drop (k + 1) = rest := drop_cons_succ ct k c rest hdrop
    have hlt : k < ct.length := drop_cons_lt ct k c rest hdrop
    have hsucc : ct.length - k = (ct.length - (k + 1)) + 1 := by omega
    have hstep : ((if k % 2 = 1 then [prev] else []) ++
        (if k % 2 = 1 ∨ k = ct.length - 1 then [c] else [])) = tagAbsorbStep ct k := by
      unfold tagAbsorbStep
      rw [hk]
      by_cases hodd : k % 2 = 1
      · rw [if_pos hodd, if_pos hodd, hprev hodd]
      · rw [if_neg hodd, if_neg hodd]
    rw [hsucc]
    simp only [decryptLoop, traceSponge_squeeze, traceSponge_absorb, idxFrom, catMap]
    rw [ih (k + 1) c _ hd1 (by intro _; rw [Nat.add_sub_cancel]; exact hk.symm)]
    rw [step_absorbed, hstep]
    simp [List.append_assoc]

/-- Absorb trace of the V2 decryption loop started at index `k`: the frame
bit followed by the tag-binding elements, per remaining index. -/
theorem decryptV2Loop_trace (ks : List (Option F) → F) (ct : List F) :
    ∀ (suffix : List F) (k : Nat) (prev : F) (s : List (Option F)),
    ct.drop k = suffix →
    (k % 2 = 1 → prev = ct.getD (k - 1) 0) →
    absorbedOf (decryptV2Loop (traceSponge ks) ct.length prev k s suffix).2
      = absorbedOf s ++ catMap (tagAbsorbStepV2 ct) (idxFrom k (ct.length - k)) := by
  intro suffix
  induction suffix with
  | nil =>
    intro k prev s hdrop hprev
    have hl := List.length_drop k ct
    rw [hdrop] at hl
    simp at hl
    have hz : ct.length - k = 0 := by omega
    rw [hz]
    simp [decryptV2Loop, idxFrom, catMap]
  | cons c rest ih =>
    intro k prev s hdrop hprev
    have hk : ct.getD k 0 = c := drop_cons_getD ct k c rest hdrop
    have hd1 : ct.drop (k + 1) = rest := drop_cons_succ ct k c rest hdrop
    have hlt : k < ct.length := drop_cons_lt ct k c rest hdrop
    have hsucc : ct.length - k = (ct.length - (k + 1)) + 1 := by omega
    have hstep : ((if k % 2 = 1 then [prev] else []) ++
        (if k % 2 = 1 ∨ k = ct.length - 1 then [c] else [])) = tagAbsorbStep ct k := by
      unfold tagAbsorbStep
      rw [hk]
      by_cases hodd : k % 2 = 1
      · rw [if_pos hodd, if_pos hodd, hprev hodd]
      · rw [if_neg hodd, if_neg hodd]
    rw [hsucc]
    simp only [decryptV2Loop, traceSponge_squeeze, traceSponge_absorb, idxFrom, catMap]
    rw [ih (k + 1) c _ hd1 (by intro _; rw [Nat.add_sub_cancel]; exact hk.symm)]
    rw [step_absorbed, hstep]
    simp [tagAbsorbStepV2, absorbedOf_append, absorbedOf, List.append_assoc]

theorem decryptLoop_trace_full (ks : List (Option F) → F) (l : List F) (s : List (Option F)) :
    absorbedOf (decryptLoop (traceSponge ks) l.length 0 0 s l).2
      = absorbedOf s ++ tagAbsorbs l := by
  have h := decryptLoop_trace ks l l 0 0 s (by simp)
    (fun h0 => absurd h0 (by decide))
  simpa [tagAbsorbs] using h

theorem decryptV2Loop_trace_full (ks : List (Option F) → F) (l : List F) (s : List (Option F)) :
    absorbedOf (decryptV2Loop (traceSponge ks) l.length 0 0 s l).2
      = absorbedOf s ++ tagAbsorbsV2 l := by
  have h := decryptV2Loop_trace ks l l 0 0 s (by simp)
    (fun h0 => absurd h0 (by decide))
  simpa [tagAbsorbsV2] using h

/-- C1: the claimed round-trip `decryptV2 (encryptV2 m pk) sk = m` fails on
the code. At the one-byte message `[0x07]` with key pair `sk = 2`,
`pk = generator * 2` and ephemeral scalar 3, decryption passes the tag
check but returns the two bytes `[0x07, 0x00]` instead of `[0x07]`: the
final `slice(0, messageLength - n)` of `decryptV2` uses the non-positive
end index `1 - 31 = -30` on the 32-byte flattened chunk array, so it keeps
`32 - 30 = 2` bytes rather than truncating to `messageLength`. -/
theorem C1_roundtrip_fails :
    (decryptV2 toyGroup toySponge (encryptV2 toyGroup toySponge 3 pk2 [7]).1 2).1 = some [7, 0] ∧
    (decryptV2 toyGroup toySponge (encryptV2 toyGroup toySponge 3 pk2 [7]).1 2).1 ≠ some [7] := by
  decide

/-- C2 counterexample: for the 31-byte message (a positive exact multiple
of 31), `encryptV2` produces a ciphertext of 2 field elements, not
`31/31 + 2 = 3`: `Math.ceil(31/31)*31 = 31` adds no padding block, so the
claim that padding never skips is false on the code. -/
theorem C2_counterexample_no_extra_block :
    (encryptV2 toyGroup toySponge 3 pk2 (List.replicate 31 7)).1.cipherText.length = 2 ∧
    (encryptV2 toyGroup toySponge 3 pk2 (List.replicate 31 7)).1.cipherText.length ≠ 31 / 31 + 2 := by
  decide

/-- C2 (amended): for every message whose byte length is a positive exact
multiple of 31, `encryptV2` adds no padding (the padded length
`ceil(len/31)*31` equals `len`), and the returned cipherText sequence has
exactly `len(m)/31 + 1` field elements: the chunks plus the tag. -/
theorem C2_amended_exact_multiple_chunk_count (G S : Type) (GM : GroupModel G)
    (sp : Sponge S) (eph : Nat) (pk : G) (m : List Nat)
    (hpos : 0 < m.length) (hdvd : 31 ∣ m.length) :
    (encryptV2 GM sp eph pk m).1.cipherText.length = m.length / 31 + 1 := by
  simp only [encryptV2, List.length_append, List.length_cons, List.length_nil]
  rw [encryptV2Loop_length, chunk31_length]
  simp only [List.length_append, List.length_replicate, padLen]
  obtain ⟨q, hq⟩ := hdvd
  omega

/-- C2 witness: the amended count at the concrete 31-byte message. -/
theorem C2_amended_witness :
    0 < (List.replicate 31 (7 : Nat)).length ∧
    (encryptV2 toyGroup toySponge 3 pk2 (List.replicate 31 (7 : Nat))).1.cipherText.length
      = (List.replicate 31 (7 : Nat)).length / 31 + 1 :=
  ⟨by decide,
   C2_amended_exact_multiple_chunk_count F (List F) toyGroup toySponge 3 pk2
     (List.replicate 31 7) (by decide) (by decide)⟩

/-- C3: the claimed truncation of the flattened decrypted bytes to exactly
`messageLength` bytes fails on the code. For the honest encryption of a
31-byte message, `decryptV2` passes the tag check but returns the empty
byte string instead of 31 bytes: `slice(0, messageLength - n)` has end
index `31 - 31 = 0`, so everything is discarded. -/
theorem C3_unpad_fails :
    (decryptV2 toyGroup toySponge (encryptV2 toyGroup toySponge 3 pk2 (List.replicate 31 7)).1 2).1
      = some [] ∧
    (encryptV2 toyGroup toySponge 3 pk2 (List.replicate 31 7)).1.messageLength = 31 := by
  decide

/-- C4: in the streaming loops of all four operations, run with the
instrumented sponge that records every absorb (for an arbitrary
deterministic keystream `ks`), the absorbed elements are exactly: for the
legacy loops, at each chunk index `i` the ciphertext element `i - 1`
exactly when `i` is odd and the ciphertext element `i` exactly when `i` is
odd or final (`tagAbsorbs`); for the V2 loops additionally the frame bit
before each squeeze (`tagAbsorbsV2`); and the schedule is identical
between the encrypting and the decrypting side: both equal the same
function of the ciphertext sequence, and decrypting an encryption replays
the encrypting side's sponge states exactly. -/
theorem C4_absorb_schedule (ks : List (Option F) → F) (msg ct : List F)
    (chs : List (List Nat)) (s : List (Option F)) :
    (absorbedOf (encryptLoop (traceSponge ks) msg.length 0 0 s msg).2
       = absorbedOf s ++ tagAbsorbs (encryptLoop (traceSponge ks) msg.length 0 0 s msg).1) ∧
    (absorbedOf (decryptLoop (traceSponge ks) ct.length 0 0 s ct).2
       = absorbedOf s ++ tagAbsorbs ct) ∧
    (absorbedOf (encryptV2Loop (traceSponge ks) chs.length 0 0 s chs).2
       = absorbedOf s ++ tagAbsorbsV2 (encryptV2Loop (traceSponge ks) chs.length 0 0 s chs).1) ∧
    (absorbedOf (decryptV2Loop (traceSponge ks) ct.length 0 0 s ct).2
       = absorbedOf s ++ tagAbsorbsV2 ct) ∧
    ((decryptLoop (traceSponge ks) msg.length 0 0 s
        (encryptLoop (traceSponge ks) msg.length 0 0 s msg).1).2
       = (encryptLoop (traceSponge ks) msg.length 0 0 s msg).2) ∧
    ((decryptV2Loop (traceSponge ks) chs.length 0 0 s
        (encryptV2Loop (traceSponge ks) chs.length 0 0 s chs).1).2
       = (encryptV2Loop (traceSponge ks) chs.length 0 0 s chs).2) := by
  have he := decryptLoop_encryptLoop (traceSponge ks) msg.length msg 0 0 s
  have hlen := encryptLoop_length (traceSponge ks) msg.length msg 0 0 s
  have hev := decryptV2Loop_encryptV2Loop (traceSponge ks) chs.length chs 0 0 s
  have hlenv := encryptV2Loop_length (traceSponge ks) chs.length chs 0 0 s
  refine ⟨?_, decryptLoop_trace_full ks ct s, ?_, decryptV2Loop_trace_full ks ct s, ?_, ?_⟩
  · have h2 := decryptLoop_trace_full ks (encryptLoop (traceSponge ks) msg.length 0 0 s msg).1 s
    rw [hlen, he] at h2
    exact h2
  · have h2 := decryptV2Loop_trace_full ks (encryptV2Loop (traceSponge ks) chs.length 0 0 s chs).1 s
    rw [hlenv, hev] at h2
    exact h2
  · rw [he]
  · rw [hev]

/-- C5: for every field-element message of length 1, 2 or 3 and every key
pair `pk = generator * sk`, the legacy `decrypt` applied to the output of
the legacy `encrypt` passes the tag check and returns exactly the original
field elements, for every sponge and group model. -/
theorem C5_legacy_roundtrip (G S : Type) (GM : GroupModel G) (sp : Sponge S)
    (eph sk : Nat) (msg : List F) (pk : G)
    (hpk : pk = GM.scale GM.generator sk)
    (hlen : msg.length = 1 ∨ msg.length = 2 ∨ msg.length = 3) :
    (decrypt GM sp (encrypt GM sp eph pk msg) sk).1 = some msg := by
  subst hpk
  exact decrypt_encrypt_general GM sp eph sk msg

/-- C5 witness: the legacy round trip at the concrete message `[5, 7]`
under the toy sponge and group. -/
theorem C5_legacy_roundtrip_witness :
    (decrypt toyGroup toySponge (encrypt toyGroup toySponge 3 pk2 [5, 7]) 2).1 = some [5, 7] :=
  C5_legacy_roundtrip F (List F) toyGroup toySponge 3 2 [5, 7] pk2 rfl (Or.inr (Or.inl rfl))

/-- C6: in `decrypt` and `decryptV2`, when the received ciphertext has a
last element `t` (the tag, separated by `pop` before the loop), the result
equals `some` of the full loop output when the tag recomputed by squeezing
after the loop has consumed all remaining ciphertext elements (`legacyTag`
and `v2Tag` are defined as exactly that squeeze-after-full-loop) equals
`t`, and `none` — no partially-decrypted output — otherwise. -/
theorem C6_tag_check_after_full_loop (G S : Type) (GM : GroupModel G) (sp : Sponge S)
    (c : CipherText G) (cv : CipherTextV2 G) (sk : Nat) (t tv : F)
    (h : c.cipherText.getLast? = some t) (hv : cv.cipherText.getLast? = some tv) :
    (decrypt GM sp c sk).1 =
      (if legacyTag GM sp c sk = t then some (legacyBody GM sp c sk) else none) ∧
    (decryptV2 GM sp cv sk).1 =
      (if v2Tag GM sp cv sk = tv then some (v2Body GM sp cv sk) else none) := by
  constructor
  · simp only [decrypt, h, legacyTag, legacyBody]
  · simp only [decryptV2, hv, v2Tag, v2Body]

/-- C6 witness: the characterization at concrete two- and three-element
ciphertexts under the toy sponge and group. -/
theorem C6_tag_check_witness :
    (decrypt toyGroup toySponge ⟨1, [0, 5]⟩ 2).1 =
      (if legacyTag toyGroup toySponge ⟨1, [0, 5]⟩ 2 = 5
       then some (legacyBody toyGroup toySponge ⟨1, [0, 5]⟩ 2) else none) ∧
    (decryptV2 toyGroup toySponge ⟨1, [0, 0, 9], 4⟩ 2).1 =
      (if v2Tag toyGroup toySponge ⟨1, [0, 0, 9], 4⟩ 2 = 9
       then some (v2Body toyGroup toySponge ⟨1, [0, 0, 9], 4⟩ 2) else none) :=
  C6_tag_check_after_full_loop F (List F) toyGroup toySponge ⟨1, [0, 5]⟩ ⟨1, [0, 0, 9], 4⟩
    2 5 9 (by decide) (by decide)

/-- C7 counterexample: `decryptV2` has no length-consistency check. For a
well-formed one-chunk encryption whose `messageLength` field is replaced
by 62, although `62 > 31 * (len(cipherText) - 1) = 31`, decryption does
not fail: it passes the tag check and returns a byte string. -/
theorem C7_counterexample_returns_bytes :
    31 * ((encryptV2 toyGroup toySponge 3 pk2 [7]).1.cipherText.length - 1) < 62 ∧
    ((decryptV2 toyGroup toySponge
        ⟨(encryptV2 toyGroup toySponge 3 pk2 [7]).1.publicKey,
         (encryptV2 toyGroup toySponge 3 pk2 [7]).1.cipherText, 62⟩ 2).1).isSome = true := by
  decide

/-- C7 (amended): `decryptV2` performs no length-consistency check: even
when the record's `messageLength` exceeds `31 * (len(cipherText) - 1)`, a
validly-tagged ciphertext still decrypts to `some` byte string (the
out-of-range length only flows into the final `slice` bound) instead of
failing with a LengthInconsistency error. -/
theorem C7_amended_no_length_check (G S : Type) (GM : GroupModel G) (sp : Sponge S)
    (eph sk : Nat) (m : List Nat) (L : Nat)
    (hbig : 31 * ((encryptV2 GM sp eph (GM.scale GM.generator sk) m).1.cipherText.length - 1) < L) :
    ((decryptV2 GM sp
        ⟨(encryptV2 GM sp eph (GM.scale GM.generator sk) m).1.publicKey,
         (encryptV2 GM sp eph (GM.scale GM.generator sk) m).1.cipherText, L⟩ sk).1).isSome = true :=
  decryptV2_encryptV2_isSome GM sp eph sk m L

/-- C7 witness: the amended statement at a concrete three-byte message
with the oversized `messageLength` 100. -/
theorem C7_amended_witness :
    ((decryptV2 toyGroup toySponge
        ⟨(encryptV2 toyGroup toySponge 3 (toyGroup.scale toyGroup.generator 2) [1, 2, 3]).1.publicKey,
         (encryptV2 toyGroup toySponge 3 (toyGroup.scale toyGroup.generator 2) [1, 2, 3]).1.cipherText,
         100⟩ 2).1).isSome = true :=
  C7_amended_no_length_check F (List F) toyGroup toySponge 3 2 [1, 2, 3] 100 (by decide)

/-- C8: for every input message and recipient public key, the record
returned by `encryptV2` satisfies the data-model invariant
`messageLength ≤ 31 * (len(cipherText) - 1)`, the last element being the
tag. -/
theorem C8_messageLength_invariant (G S : Type) (GM : GroupModel G) (sp : Sponge S)
    (eph : Nat) (pk : G) (m : List Nat) :
    (encryptV2 GM sp eph pk m).1.messageLength ≤
      31 * ((encryptV2 GM sp eph pk m).1.cipherText.length - 1) := by
  simp only [encryptV2, List.length_append, List.length_cons, List.length_nil]
  rw [encryptV2Loop_length, chunk31_length]
  simp only [List.length_append, List.length_replicate, padLen]
  omega

/-- C9: both `decrypt` and `decryptV2` mutate the caller-supplied
ciphertext array: `pop` removes the final element (the tag) in place, so
the post-call array is the input without its last element; when the input
was nonempty it is one element shorter and differs from the original, so a
second decryption of the same record operates on a different sequence. -/
theorem C9_pop_mutates_cipherText (G S : Type) (GM : GroupModel G) (sp : Sponge S)
    (c : CipherText G) (cv : CipherTextV2 G) (sk : Nat) :
    ((decrypt GM sp c sk).2 = c.cipherText.dropLast) ∧
    ((decryptV2 GM sp cv sk).2 = cv.cipherText.dropLast) ∧
    (c.cipherText ≠ [] →
      (decrypt GM sp c sk).2.length = c.cipherText.length - 1 ∧
      (decrypt GM sp c sk).2 ≠ c.cipherText) ∧
    (cv.cipherText ≠ [] →
      (decryptV2 GM sp cv sk).2.length = cv.cipherText.length - 1 ∧
      (decryptV2 GM sp cv sk).2 ≠ cv.cipherText) := by
  have h1 : (decrypt GM sp c sk).2 = c.cipherText.dropLast := by
    cases h : c.cipherText.getLast? with
    | none =>
      have : c.cipherText = [] := List.getLast?_eq_none_iff.mp h
      simp [decrypt, h, this]
    | some t => simp [decrypt, h]
  have h2 : (decryptV2 GM sp cv sk).2 = cv.cipherText.dropLast := by
    cases h : cv.cipherText.getLast? with
    | none =>
      have : cv.cipherText = [] := List.getLast?_eq_none_iff.mp h
      simp [decryptV2, h, this]
    | some t => simp [decryptV2, h]
  refine ⟨h1, h2, ?_, ?_⟩
  · intro hne
    constructor
    · rw [h1, List.length_dropLast]
    · rw [h1]
      intro heq
      have hlen := congrArg List.length heq
      rw [List.length_dropLast] at hlen
      have : c.cipherText.length ≠ 0 := by
        intro h0
        exact hne (List.length_eq_zero.mp h0)
      omega
  · intro hne
    constructor
    · rw [h2, List.length_dropLast]
    · rw [h2]
      intro heq
      have hlen := congrArg List.length heq
      rw [List.length_dropLast] at hlen
      have : cv.cipherText.length ≠ 0 := by
        intro h0
        exact hne (List.length_eq_zero.mp h0)
      omega

/-- C9 witness: the mutation at concrete two- and three-element
ciphertexts: the caller's array loses its last element. -/
theorem C9_pop_witness :
    (decrypt toyGroup toySponge ⟨1, [3, 4]⟩ 2).2 ≠ [3, 4] ∧
    (decrypt toyGroup toySponge ⟨1, [3, 4]⟩ 2).2.length = 1 ∧
    (decryptV2 toyGroup toySponge ⟨1, [3, 4, 6], 2⟩ 2).2 ≠ [3, 4, 6] ∧
    (decryptV2 toyGroup toySponge ⟨1, [3, 4, 6], 2⟩ 2).2.length = 2 :=
  ⟨((C9_pop_mutates_cipherText F (List F) toyGroup toySponge ⟨1, [3, 4]⟩ ⟨1, [3, 4, 6], 2⟩ 2).2.2.1
      (by decide)).2,
   ((C9_pop_mutates_cipherText F (List F) toyGroup toySponge ⟨1, [3, 4]⟩ ⟨1, [3, 4, 6], 2⟩ 2).2.2.1
      (by decide)).1,
   ((C9_pop_mutates_cipherText F (List F) toyGroup toySponge ⟨1, [3, 4]⟩ ⟨1, [3, 4, 6], 2⟩ 2).2.2.2
      (by decide)).2,
   ((C9_pop_mutates_cipherText F (List F) toyGroup toySponge ⟨1, [3, 4]⟩ ⟨1, [3, 4, 6], 2⟩ 2).2.2.2
      (by decide)).1⟩

/-- C10: `encryptV2` mutates its message argument: after the call the
caller's `Bytes` object holds the original bytes extended with the zero
padding, of length `ceil(len/31)*31` — a multiple of 31 at least the
original length. -/
theorem C10_encryptV2_pads_message (G S : Type) (GM : GroupModel G) (sp : Sponge S)
    (eph : Nat) (pk : G) (m : List Nat) :
    (encryptV2 GM sp eph pk m).2 = m ++ List.replicate (padLen m.length - m.length) 0 ∧
    (encryptV2 GM sp eph pk m).2.length = padLen m.length ∧
    31 ∣ padLen m.length ∧
    m.length ≤ padLen m.length := by
  refine ⟨rfl, ?_, ?_, ?_⟩
  · simp only [encryptV2, List.length_append, List.length_replicate, padLen]
    omega
  · unfold padLen
    exact dvd_mul_left 31 _
  · unfold padLen
    omega

end PKEnc
